import Mathlib

/-!
Shallow embedding of the single-threaded cooperative task scheduler in
`src/user/src/bin/runtime.rs`: the `Poll` signal, the no-op waker and its
vtable, `Task`, `Runtime` (the ready queue and its run loop), and the
`Delay` timer primitive.  Futures driven by the scheduler are opaque to it,
so the run loop is developed over an abstract `Machine` giving the poll
semantics of a future state type; `usize` arithmetic is modelled as natural
numbers with wrap-around modulo `2 ^ 64`.
-/

namespace AsyncOS

/-- Result of polling a future: `Poll::Ready(())` or `Poll::Pending`. -/
inductive Poll where
  | Ready : Poll
  | Pending : Poll
deriving DecidableEq, Repr

/-- Address of a static `RawWakerVTable`; the program has exactly one,
`DUMMY_WAKER_VTABLE`. -/
inductive VTablePtr where
  | dummy : VTablePtr
deriving DecidableEq, Repr

/-- The `RawWaker` of the source: a (null) data pointer together with a
pointer to a vtable. -/
structure RawWaker where
  data : Unit
  vtable : VTablePtr
deriving DecidableEq, Repr

/-- A `RawWakerVTable`: the four entries `clone`, `wake`, `wake_by_ref`,
`drop`, each modelled as a transformer of an arbitrary ambient state `S`
(the Rust functions receive only the data pointer; any effect they could
have is an effect on the ambient state). -/
structure RawWakerVTable (S : Type) where
  clone : Unit → S → RawWaker × S
  wake : Unit → S → S
  wake_by_ref : Unit → S → S
  drop : Unit → S → S

/-- The vtable entry `no_op` of the source: a function with an empty body,
hence the identity on any ambient state. -/
def no_op {S : Type} (_ : Unit) (s : S) : S := s

/-- The `dummy_clone` of the source: returns a `RawWaker` built from the null
pointer and `DUMMY_WAKER_VTABLE`, and has no other effect. -/
def dummy_clone {S : Type} (_ : Unit) (s : S) : RawWaker × S :=
  (RawWaker.mk () VTablePtr.dummy, s)

/-- The static `DUMMY_WAKER_VTABLE = RawWakerVTable::new(dummy_clone, no_op, no_op, no_op)`. -/
def DUMMY_WAKER_VTABLE (S : Type) : RawWakerVTable S :=
  ⟨dummy_clone, no_op, no_op, no_op⟩

/-- Dereference a vtable pointer to the vtable it addresses. -/
def VTablePtr.deref (S : Type) : VTablePtr → RawWakerVTable S
  | VTablePtr.dummy => DUMMY_WAKER_VTABLE S

/-- A `Waker` wraps a `RawWaker` (as `Waker::from_raw` does). -/
structure Waker where
  raw : RawWaker
deriving DecidableEq, Repr

/-- `Waker::from_raw`. -/
def Waker.from_raw (r : RawWaker) : Waker := ⟨r⟩

/-- The function `waker()` of the source: builds a `RawWaker` from the null pointer and
`DUMMY_WAKER_VTABLE` and wraps it with `Waker::from_raw`. -/
def waker : Waker :=
  Waker.from_raw (RawWaker.mk () VTablePtr.dummy)

/-- `Waker::wake`: dispatch through the `wake` entry of the vtable. -/
def Waker.wake {S : Type} (w : Waker) (s : S) : S :=
  (VTablePtr.deref S w.raw.vtable).wake w.raw.data s

/-- `Waker::wake_by_ref`: dispatch through the `wake_by_ref` entry of the vtable. -/
def Waker.wake_by_ref {S : Type} (w : Waker) (s : S) : S :=
  (VTablePtr.deref S w.raw.vtable).wake_by_ref w.raw.data s

/-- Dropping a `Waker`: dispatch through the `drop` entry of the vtable. -/
def Waker.drop {S : Type} (w : Waker) (s : S) : S :=
  (VTablePtr.deref S w.raw.vtable).drop w.raw.data s

/-- `Waker::clone`: dispatch through the `clone` entry of the vtable and wrap the
resulting `RawWaker`. -/
def Waker.clone {S : Type} (w : Waker) (s : S) : Waker × S :=
  let r := (VTablePtr.deref S w.raw.vtable).clone w.raw.data s
  (Waker.from_raw r.1, r.2)

/-- `Context` carries the waker it was built from (`Context::from_waker`). -/
structure Context where
  waker : Waker
deriving DecidableEq, Repr

/-- `Context::from_waker`. -/
def Context.from_waker (w : Waker) : Context := ⟨w⟩

/-- A `Task` of the source: an `id` and the wrapped future (`future` is the
current state of the future; its poll behaviour is supplied by a `Machine`). -/
structure Task (σ : Type) where
  id : Nat
  future : σ
deriving DecidableEq, Repr

/-- Outcome of one poll of a future: the updated state of the future, the updated
external world, and the returned `Poll`. -/
structure PollStep (σ W : Type) where
  state : σ
  world : W
  result : Poll

/-- Poll semantics of an (otherwise opaque) future state type `σ` over an
external world `W`: one resumption step.  The scheduler never inspects `σ`;
it only branches on the returned `Poll`. -/
structure Machine (σ W : Type) where
  poll : σ → Context → W → PollStep σ W

variable {σ W : Type}

/-- `Task::poll`: delegates to the `poll` of the wrapped future, forwarding the
context unchanged; the `id` of the task is untouched. -/
def Task.poll (M : Machine σ W) (t : Task σ) (cx : Context) (w : W) :
    PollStep (Task σ) W :=
  let r := M.poll t.future cx w
  ⟨⟨t.id, r.state⟩, r.world, r.result⟩

/-- The `Runtime`: the FIFO ready queue (`VecDeque<Task>` as a list whose head
is the queue front). -/
structure Runtime (σ : Type) where
  ready_queue : List (Task σ)
deriving DecidableEq, Repr

/-- `Runtime::new`. -/
def Runtime.new (σ : Type) : Runtime σ := ⟨[]⟩

/-- `Runtime::spawn`: wrap the future in a `Task` whose id is the current
queue length and push it at the back of the ready queue. -/
def Runtime.spawn (rt : Runtime σ) (future : σ) : Runtime σ :=
  ⟨rt.ready_queue ++ [⟨rt.ready_queue.length, future⟩]⟩

/-- One iteration of the `Runtime::run` loop body: if the ready queue is
non-empty, pop the front task, build a fresh no-op waker and a context from
it, poll the task once, and push it at the back when the poll returned
`Pending` (dropping it when `Ready`).  On the empty queue the loop body does
not execute (the loop exits), so the state is unchanged. -/
def runStep (M : Machine σ W) (st : Runtime σ × W) : Runtime σ × W :=
  match st.1.ready_queue with
  | [] => st
  | t :: rest =>
    let wk := waker
    let cx := Context.from_waker wk
    let r := Task.poll M t cx st.2
    match r.result with
    | Poll.Pending => (⟨rest ++ [r.state]⟩, r.world)
    | Poll.Ready => (⟨rest⟩, r.world)

/-- `n` iterations of the `Runtime::run` loop body. -/
def runN (M : Machine σ W) : Nat → Runtime σ × W → Runtime σ × W
  | 0, st => st
  | n + 1, st => runN M n (runStep M st)

/-- The polls performed by one iteration of the run loop: the id of the task
polled together with the `Poll` it returned (empty when the queue is empty
and the loop exits). -/
def stepTrace (M : Machine σ W) (st : Runtime σ × W) : List (Nat × Poll) :=
  match st.1.ready_queue with
  | [] => []
  | t :: _ =>
    let r := Task.poll M t (Context.from_waker waker) st.2
    [(t.id, r.result)]

/-- The polls performed by `n` iterations of the run loop, in order. -/
def traceN (M : Machine σ W) : Nat → Runtime σ × W → List (Nat × Poll)
  | 0, _ => []
  | n + 1, st => stepTrace M st ++ traceN M n (runStep M st)

/-- The ids of the tasks in the ready queue, front first. -/
def Runtime.ids (rt : Runtime σ) : List Nat := rt.ready_queue.map Task.id

/-- Width of `usize` on the target (riscv64): values are taken modulo `2 ^ 64`. -/
def USIZE : Nat := 2 ^ 64

/-- The external monotonic clock; `time` is the value the `get_time` syscall
currently reports. -/
structure Clock where
  time : Nat
deriving DecidableEq, Repr

/-- The `get_time()` syscall result, cast `as usize`. -/
def get_time (w : Clock) : Nat := w.time % USIZE

/-- The `Delay` future: only its immutable `target_time` field. -/
structure Delay where
  target_time : Nat
deriving DecidableEq, Repr

/-- `Delay::new(ms)`: read the clock and store `get_time() as usize + ms`
(`usize` addition, i.e. wrap-around modulo `2 ^ 64`). -/
def Delay.new (w : Clock) (ms : Nat) : Delay :=
  ⟨(get_time w + ms) % USIZE⟩

/-- `<Delay as Future>::poll`: read the clock; `Ready` iff the reading has
reached `target_time`, else `Pending`.  The delay itself is returned
unchanged (the poll body never writes to `self`). -/
def Delay.poll (d : Delay) (w : Clock) : Poll × Delay :=
  (if d.target_time ≤ get_time w then Poll.Ready else Poll.Pending, d)

/-- When the ready queue is empty the loop body does not run. -/
theorem runStep_of_empty (M : Machine σ W) (st : Runtime σ × W)
    (h : st.1.ready_queue = []) : runStep M st = st := by
  simp [runStep, h]

/-- When the ready queue is empty, any number of loop iterations leaves the
whole state (queue and world) unchanged. -/
theorem runN_of_empty (M : Machine σ W) (st : Runtime σ × W)
    (h : st.1.ready_queue = []) : ∀ n, runN M n st = st := by
  intro n
  induction n with
  | zero => rfl
  | succ n ih =>
    show runN M n (runStep M st) = st
    rw [runStep_of_empty M st h]
    exact ih

/-- When the ready queue is empty, no poll is ever performed. -/
theorem traceN_of_empty (M : Machine σ W) (st : Runtime σ × W)
    (h : st.1.ready_queue = []) : ∀ n, traceN M n st = [] := by
  intro n
  induction n with
  | zero => rfl
  | succ n ih =>
    show stepTrace M st ++ traceN M n (runStep M st) = []
    rw [runStep_of_empty M st h]
    simp [stepTrace, h, ih]

/-- Claim C1: the run loop, while the ready queue is non-empty, removes the
head task, polls it exactly once with a context freshly constructed from the
no-op waker, appends that same task (with its advanced future) at the tail
when the poll returned `Pending` and discards it when it returned `Ready`;
when the ready queue is empty the loop performs no poll and `run()` returns
with the state unchanged. -/
theorem C1_run_loop (σ W : Type) (M : Machine σ W) (st : Runtime σ × W) :
    (st.1.ready_queue = [] → (∀ n, runN M n st = st) ∧ stepTrace M st = []) ∧
    (∀ t rest, st.1.ready_queue = t :: rest →
      stepTrace M st = [(t.id, (Task.poll M t (Context.from_waker waker) st.2).result)] ∧
      ((Task.poll M t (Context.from_waker waker) st.2).result = Poll.Pending →
        runStep M st =
          (⟨rest ++ [(Task.poll M t (Context.from_waker waker) st.2).state]⟩,
           (Task.poll M t (Context.from_waker waker) st.2).world)) ∧
      ((Task.poll M t (Context.from_waker waker) st.2).result = Poll.Ready →
        runStep M st = (⟨rest⟩, (Task.poll M t (Context.from_waker waker) st.2).world))) := by
  constructor
  · intro h
    exact ⟨runN_of_empty M st h, by simp [stepTrace, h]⟩
  · intro t rest h
    refine ⟨by simp [stepTrace, h], fun hr => ?_, fun hr => ?_⟩
    · simp [runStep, h, hr]
    · simp [runStep, h, hr]

/-- A machine whose futures complete on their first poll. -/
def readyM : Machine Unit Unit := ⟨fun _ _ w => ⟨(), w, Poll.Ready⟩⟩

/-- Witness for C1: one loop iteration on a one-task queue polls that task
once and, the poll being `Ready`, discards it. -/
theorem C1_run_loop_witness :
    runStep readyM (⟨[⟨0, ()⟩]⟩, ()) = (⟨[]⟩, ()) ∧
    stepTrace readyM (⟨[⟨0, ()⟩]⟩, ()) = [(0, Poll.Ready)] := by
  have h := (C1_run_loop Unit Unit readyM (⟨[⟨0, ()⟩]⟩, ())).2 ⟨0, ()⟩ [] rfl
  exact ⟨h.2.2 rfl, h.1⟩

/-- Counterexample to claim C7: on the same `Runtime`, spawn a task that
completes on its first poll, drive the queue empty with `run()`, then spawn
again: both spawned tasks are assigned id `0`, so ids of distinct tasks
created by `spawn` coincide. -/
theorem C7_counterexample :
    ((Runtime.spawn (Runtime.new Unit) ()).ready_queue.map Task.id = [0]) ∧
    ((runN readyM 1 (Runtime.spawn (Runtime.new Unit) (), ())).1.ready_queue = []) ∧
    ((Runtime.spawn
        (runN readyM 1 (Runtime.spawn (Runtime.new Unit) (), ())).1
        ()).ready_queue.map Task.id = [0]) :=
  ⟨rfl, rfl, rfl⟩

/-- Ids assigned by a sequence of `spawn` calls with no intervening removals:
successive queue lengths. -/
theorem spawn_foldl_ids (σ : Type) (cs : List σ) (rt : Runtime σ) :
    (cs.foldl Runtime.spawn rt).ids =
      rt.ids ++ List.range' rt.ids.length cs.length := by
  induction cs generalizing rt with
  | nil => simp
  | cons c cs ih =>
    have hlen : rt.ready_queue.length = rt.ids.length := by
      simp [Runtime.ids]
    have hspawn : (Runtime.spawn rt c).ids = rt.ids ++ [rt.ids.length] := by
      simp [Runtime.spawn, Runtime.ids]
    show (cs.foldl Runtime.spawn (Runtime.spawn rt c)).ids = _
    rw [ih (Runtime.spawn rt c), hspawn]
    have hL : (rt.ids ++ [rt.ids.length]).length = rt.ids.length + 1 := by simp
    rw [hL, List.length_cons, List.range'_succ]
    simp

/-- Amended claim C7: task ids are unique for the supported usage pattern, a
sequence of `spawn` calls with no intervening `run()` (no removals): spawning
`n` computations into a fresh `Runtime` assigns exactly the ids
`0, 1, …, n-1`, which are pairwise distinct.  Once `run()` has removed tasks,
ids are reused (see the counterexample), so they are not globally unique. -/
theorem C7_unique_ids_amended (σ : Type) (cs : List σ) :
    (cs.foldl Runtime.spawn (Runtime.new σ)).ids = List.range cs.length ∧
    (cs.foldl Runtime.spawn (Runtime.new σ)).ids.Nodup := by
  have h := spawn_foldl_ids σ cs (Runtime.new σ)
  have hnew : (Runtime.new σ).ids = [] := rfl
  rw [hnew] at h
  simp only [List.nil_append, List.length_nil] at h
  rw [h, ← List.range_eq_range']
  exact ⟨rfl, List.nodup_range _⟩

/-- Claim C2: `Delay::new(offset)` reads the current clock value `T` and
stores `T + offset` (`usize` addition) as `target_time`; every poll of a
`Delay` reads the current clock value and returns `Ready` iff that value is
at least `target_time`, else `Pending`; neither operation has any other
effect on the state of the `Delay`. -/
theorem C2_delay_new_poll (w : Clock) (ms : Nat) (d : Delay) (q : Clock) :
    (Delay.new w ms).target_time = (get_time w + ms) % USIZE ∧
    (get_time w + ms < USIZE → (Delay.new w ms).target_time = get_time w + ms) ∧
    ((Delay.poll d q).1 = Poll.Ready ↔ d.target_time ≤ get_time q) ∧
    ((Delay.poll d q).1 = Poll.Pending ↔ ¬ d.target_time ≤ get_time q) ∧
    (Delay.poll d q).2 = d := by
  refine ⟨rfl, fun h => ?_, ?_, ?_, rfl⟩
  · simp [Delay.new, Nat.mod_eq_of_lt h]
  · by_cases hc : d.target_time ≤ get_time q <;> simp [Delay.poll, hc]
  · by_cases hc : d.target_time ≤ get_time q <;> simp [Delay.poll, hc]

/-- Witness for C2 at a concrete clock and offset. -/
theorem C2_delay_new_poll_witness :
    (Delay.new ⟨5⟩ 7).target_time = 12 ∧ (Delay.poll ⟨12⟩ ⟨12⟩).1 = Poll.Ready := by
  constructor
  · have h := (C2_delay_new_poll ⟨5⟩ 7 ⟨12⟩ ⟨12⟩).2.1 (by decide)
    rw [h]; decide
  · exact (C2_delay_new_poll ⟨5⟩ 7 ⟨12⟩ ⟨12⟩).2.2.1.mpr (by decide)

/-- Claim C6: `spawn(computation)` wraps the computation in a new `Task`
whose id is the current queue length, appends it at the tail, leaves every
task already in the queue (and its position) unchanged, and grows the queue
by exactly one. -/
theorem C6_spawn_appends (σ : Type) (rt : Runtime σ) (c : σ) :
    Runtime.spawn rt c = ⟨rt.ready_queue ++ [⟨rt.ready_queue.length, c⟩]⟩ ∧
    (Runtime.spawn rt c).ready_queue.length = rt.ready_queue.length + 1 ∧
    (Runtime.spawn rt c).ready_queue.take rt.ready_queue.length = rt.ready_queue ∧
    (Runtime.spawn rt c).ready_queue.getLast? = some ⟨rt.ready_queue.length, c⟩ := by
  refine ⟨rfl, by simp [Runtime.spawn], ?_, ?_⟩
  · exact List.take_left rt.ready_queue [⟨rt.ready_queue.length, c⟩]
  · simp [Runtime.spawn]

/-- Claim C8: the core operations are total: `spawn` always succeeds (and
grows the queue), `Task::poll` always yields `Ready` or `Pending`,
`Delay::new` yields a well-formed `usize` target for every clock reading and
offset (including when the sum exceeds the machine word size), and the poll
of `Delay` always yields `Ready` or `Pending`. -/
theorem C8_totality :
    (∀ (σ : Type) (rt : Runtime σ) (c : σ),
      (Runtime.spawn rt c).ready_queue.length = rt.ready_queue.length + 1) ∧
    (∀ (σ W : Type) (M : Machine σ W) (t : Task σ) (cx : Context) (w : W),
      (Task.poll M t cx w).result = Poll.Ready ∨
        (Task.poll M t cx w).result = Poll.Pending) ∧
    (∀ (w : Clock) (ms : Nat), (Delay.new w ms).target_time < USIZE) ∧
    (∀ (d : Delay) (q : Clock),
      (Delay.poll d q).1 = Poll.Ready ∨ (Delay.poll d q).1 = Poll.Pending) := by
  refine ⟨fun σ rt c => by simp [Runtime.spawn], fun σ W M t cx w => ?_,
    fun w ms => ?_, fun d q => ?_⟩
  · cases hr : (Task.poll M t cx w).result
    · exact Or.inl rfl
    · exact Or.inr rfl
  · exact Nat.mod_lt _ (by decide)
  · by_cases hc : d.target_time ≤ get_time q <;> simp [Delay.poll, hc]

/-- Claim C9: the waker built by `waker()` is inert: `wake`, `wake_by_ref`
and `drop` change no state, and `clone` yields the very same waker (hence
one with the same no-op behaviour) without changing any state. -/
theorem C9_waker_inert (S : Type) (s : S) :
    Waker.wake waker s = s ∧
    Waker.wake_by_ref waker s = s ∧
    Waker.drop waker s = s ∧
    Waker.clone waker s = (waker, s) :=
  ⟨rfl, rfl, rfl, rfl⟩

/-- Claim C10: the `target_time` of a `Delay` is never mutated by polling, and its
poll result is monotone in the clock value: if a poll at reading `t1` is
`Ready` then a poll at any reading `t2 ≥ t1` is `Ready` as well. -/
theorem C10_delay_monotone (d : Delay) (q q1 q2 : Clock) :
    (Delay.poll d q).2 = d ∧
    (get_time q1 ≤ get_time q2 →
      (Delay.poll d q1).1 = Poll.Ready → (Delay.poll d q2).1 = Poll.Ready) := by
  refine ⟨rfl, fun hle h1 => ?_⟩
  by_cases hc : d.target_time ≤ get_time q1
  · have h2 : d.target_time ≤ get_time q2 := le_trans hc hle
    simp [Delay.poll, h2]
  · simp [Delay.poll, hc] at h1

/-- Witness for C10 at a concrete delay and pair of clock readings. -/
theorem C10_delay_monotone_witness : (Delay.poll ⟨3⟩ ⟨7⟩).1 = Poll.Ready :=
  (C10_delay_monotone ⟨3⟩ ⟨3⟩ ⟨3⟩ ⟨7⟩).2 (by decide) (by decide)

@[simp] theorem runN_succ (M : Machine σ W) (n : Nat) (st : Runtime σ × W) :
    runN M (n + 1) st = runN M n (runStep M st) := rfl

@[simp] theorem traceN_succ (M : Machine σ W) (n : Nat) (st : Runtime σ × W) :
    traceN M (n + 1) st = stepTrace M st ++ traceN M n (runStep M st) := rfl

/-- A non-empty queue makes the loop body poll exactly once. -/
theorem stepTrace_length_of_cons (M : Machine σ W) (st : Runtime σ × W)
    (t : Task σ) (rest : List (Task σ)) (hq : st.1.ready_queue = t :: rest) :
    (stepTrace M st).length = 1 := by
  simp [stepTrace, hq]

/-- A completion marker for a future state type, consistent with the machine:
a `Ready` poll leaves the future in a completed state, and a `Pending` poll
of a not-yet-completed future leaves it not yet completed. -/
def DoneMarker (M : Machine σ W) (done : σ → Prop) : Prop :=
  (∀ s cx w, (M.poll s cx w).result = Poll.Ready → done (M.poll s cx w).state) ∧
  (∀ s cx w, ¬ done s → (M.poll s cx w).result = Poll.Pending →
    ¬ done (M.poll s cx w).state)

/-- One loop iteration keeps the queue free of completed tasks. -/
theorem runStep_preserves_not_done (M : Machine σ W) (done : σ → Prop)
    (hM : DoneMarker M done) (st : Runtime σ × W)
    (h0 : ∀ t ∈ st.1.ready_queue, ¬ done t.future) :
    ∀ t ∈ (runStep M st).1.ready_queue, ¬ done t.future := by
  cases hq : st.1.ready_queue with
  | nil =>
    rw [runStep_of_empty M st hq]
    exact h0
  | cons t rest =>
    have hhead : ¬ done t.future := h0 t (by rw [hq]; exact List.mem_cons_self t rest)
    have htail : ∀ u ∈ rest, ¬ done u.future := by
      intro u hu
      exact h0 u (by rw [hq]; exact List.mem_cons_of_mem t hu)
    cases hr : (Task.poll M t (Context.from_waker waker) st.2).result with
    | Ready =>
      intro u hu
      rw [show runStep M st = (⟨rest⟩, (Task.poll M t (Context.from_waker waker) st.2).world)
        by simp [runStep, hq, hr]] at hu
      exact htail u hu
    | Pending =>
      intro u hu
      rw [show runStep M st =
          (⟨rest ++ [(Task.poll M t (Context.from_waker waker) st.2).state]⟩,
           (Task.poll M t (Context.from_waker waker) st.2).world)
        by simp [runStep, hq, hr]] at hu
      rcases List.mem_append.mp hu with hin | hnew
      · exact htail u hin
      · have hu' : u = (Task.poll M t (Context.from_waker waker) st.2).state :=
          List.mem_singleton.mp hnew
        rw [hu']
        exact hM.2 t.future (Context.from_waker waker) st.2 hhead hr

/-- Any number of loop iterations keeps the queue free of completed tasks. -/
theorem runN_preserves_not_done (M : Machine σ W) (done : σ → Prop)
    (hM : DoneMarker M done) :
    ∀ n (st : Runtime σ × W), (∀ t ∈ st.1.ready_queue, ¬ done t.future) →
      ∀ t ∈ (runN M n st).1.ready_queue, ¬ done t.future := by
  intro n
  induction n with
  | zero => intro st h0; exact h0
  | succ n ih =>
    intro st h0
    exact ih (runStep M st) (runStep_preserves_not_done M done hM st h0)

/-- Claim C5: for any completion marker consistent with the poll semantics,
if the initial ready queue holds only not-yet-completed tasks then every
reachable ready queue holds only not-yet-completed tasks, and every task the
loop is about to poll (the queue head) is not yet completed — a task whose
computation has returned `Ready` is dropped and never polled again. -/
theorem C5_queue_invariant (σ W : Type) (M : Machine σ W) (done : σ → Prop)
    (hM : DoneMarker M done) (st : Runtime σ × W)
    (h0 : ∀ t ∈ st.1.ready_queue, ¬ done t.future) :
    (∀ n, ∀ t ∈ (runN M n st).1.ready_queue, ¬ done t.future) ∧
    (∀ n t rest, (runN M n st).1.ready_queue = t :: rest → ¬ done t.future) := by
  have h : ∀ n, ∀ t ∈ (runN M n st).1.ready_queue, ¬ done t.future :=
    fun n => runN_preserves_not_done M done hM n st h0
  exact ⟨h, fun n t rest hq => h n t (by rw [hq]; exact List.mem_cons_self t rest)⟩

/-- A machine over future states in `Nat` counting the polls still needed:
polling state `s` returns `Ready` when `s = 1`, else `Pending`, and leaves
the state `s - 1`. -/
def countdownM : Machine Nat Unit :=
  ⟨fun s _ w => ⟨s - 1, w, if s = 1 then Poll.Ready else Poll.Pending⟩⟩

/-- Witness for C5: after one loop iteration on a two-task queue the task
`⟨1, 3⟩` is still queued and still not completed. -/
theorem C5_queue_invariant_witness :
    Task.mk 1 3 ∈ (runN countdownM 1 (⟨[⟨0, 2⟩, ⟨1, 3⟩]⟩, ())).1.ready_queue ∧
    ¬ (Task.mk 1 3 : Task Nat).future = 0 := by
  have hM : DoneMarker countdownM (fun s => s = 0) := by
    constructor
    · intro s cx w h
      by_cases h1 : s = 1
      · simp [countdownM, h1]
      · simp [countdownM, h1] at h
    · intro s cx w hnd hp
      by_cases h1 : s = 1
      · simp [countdownM, h1] at hp
      · have hnd' : ¬ s = 0 := hnd
        show ¬ (s - 1 = 0)
        omega
  have h := (C5_queue_invariant Nat Unit countdownM (fun s => s = 0) hM
    (⟨[⟨0, 2⟩, ⟨1, 3⟩]⟩, ()) (by decide)).1 1 ⟨1, 3⟩ (by decide)
  exact ⟨by decide, h⟩

/-- A poll-count measure for a future state type, consistent with the
machine: a state with count `1` polls `Ready`, a state with count at least
`2` polls `Pending` and its count drops by exactly one. -/
def StepCounts (M : Machine σ W) (cnt : σ → Nat) : Prop :=
  ∀ s cx w, (cnt s = 1 → (M.poll s cx w).result = Poll.Ready) ∧
    (2 ≤ cnt s → (M.poll s cx w).result = Poll.Pending ∧
      cnt (M.poll s cx w).state = cnt s - 1)

/-- Total number of polls still needed by the whole ready queue. -/
def sumCnt (cnt : σ → Nat) (rt : Runtime σ) : Nat :=
  (rt.ready_queue.map fun t => cnt t.future).sum

/-- One loop iteration on a non-empty queue decreases the total poll count by
exactly one and preserves positivity of every queued count. -/
theorem runStep_sumCnt (M : Machine σ W) (cnt : σ → Nat) (hM : StepCounts M cnt)
    (st : Runtime σ × W) (t : Task σ) (rest : List (Task σ))
    (hq : st.1.ready_queue = t :: rest)
    (h1 : ∀ u ∈ st.1.ready_queue, 1 ≤ cnt u.future) :
    sumCnt cnt (runStep M st).1 + 1 = sumCnt cnt st.1 ∧
    (∀ u ∈ (runStep M st).1.ready_queue, 1 ≤ cnt u.future) := by
  have hhead : 1 ≤ cnt t.future := h1 t (by rw [hq]; exact List.mem_cons_self t rest)
  have htail : ∀ u ∈ rest, 1 ≤ cnt u.future := by
    intro u hu
    exact h1 u (by rw [hq]; exact List.mem_cons_of_mem t hu)
  have hsum : sumCnt cnt st.1 = cnt t.future + sumCnt cnt ⟨rest⟩ := by
    simp [sumCnt, hq]
  have hMt := hM t.future (Context.from_waker waker) st.2
  rcases Nat.lt_or_ge (cnt t.future) 2 with hc | hc
  · have hc1 : cnt t.future = 1 := by omega
    have hr : (Task.poll M t (Context.from_waker waker) st.2).result = Poll.Ready :=
      hMt.1 hc1
    have hstep : runStep M st =
        (⟨rest⟩, (Task.poll M t (Context.from_waker waker) st.2).world) := by
      simp [runStep, hq, hr]
    constructor
    · rw [hstep, hsum, hc1]
      simp [sumCnt, Nat.add_comm]
    · intro u hu
      rw [hstep] at hu
      exact htail u hu
  · have hr : (Task.poll M t (Context.from_waker waker) st.2).result = Poll.Pending :=
      (hMt.2 hc).1
    have hcnt' : cnt (Task.poll M t (Context.from_waker waker) st.2).state.future =
        cnt t.future - 1 := (hMt.2 hc).2
    have hstep : runStep M st =
        (⟨rest ++ [(Task.poll M t (Context.from_waker waker) st.2).state]⟩,
         (Task.poll M t (Context.from_waker waker) st.2).world) := by
      simp [runStep, hq, hr]
    constructor
    · rw [hstep, hsum]
      simp only [sumCnt, List.map_append, List.sum_append, List.map_cons,
        List.sum_cons, List.map_nil, List.sum_nil]
      rw [hcnt']
      omega
    · intro u hu
      rw [hstep] at hu
      rcases List.mem_append.mp hu with hin | hnew
      · exact htail u hin
      · have hu' : u = (Task.poll M t (Context.from_waker waker) st.2).state :=
          List.mem_singleton.mp hnew
        rw [hu', hcnt']
        omega

/-- The run loop performs exactly `sumCnt` polls and then stops: after that
many iterations the queue is empty and the state is stable, the trace length
equals the total poll count, and at every earlier iteration the queue is
still non-empty. -/
theorem run_exact (M : Machine σ W) (cnt : σ → Nat) (hM : StepCounts M cnt) :
    ∀ n (st : Runtime σ × W), sumCnt cnt st.1 = n →
      (∀ u ∈ st.1.ready_queue, 1 ≤ cnt u.future) →
      (runN M n st).1.ready_queue = [] ∧
      (∀ m, n ≤ m → runN M m st = runN M n st) ∧
      (∀ m, n ≤ m → (traceN M m st).length = n) ∧
      (∀ m, m < n → (runN M m st).1.ready_queue ≠ []) := by
  intro n
  induction n with
  | zero =>
    intro st hsum h1
    have hq : st.1.ready_queue = [] := by
      cases hq : st.1.ready_queue with
      | nil => rfl
      | cons t rest =>
        exfalso
        have ht : 1 ≤ cnt t.future := h1 t (by rw [hq]; exact List.mem_cons_self t rest)
        have : sumCnt cnt st.1 = cnt t.future + sumCnt cnt ⟨rest⟩ := by
          simp [sumCnt, hq]
        omega
    refine ⟨hq, fun m _ => ?_, fun m _ => ?_, fun m hm => by omega⟩
    · rw [runN_of_empty M st hq m]
      rfl
    · rw [traceN_of_empty M st hq m]
      rfl
  | succ n ih =>
    intro st hsum h1
    cases hq : st.1.ready_queue with
    | nil =>
      exfalso
      have : sumCnt cnt st.1 = 0 := by simp [sumCnt, hq]
      omega
    | cons t rest =>
      obtain ⟨hdec, hinv⟩ := runStep_sumCnt M cnt hM st t rest hq h1
      have hsum' : sumCnt cnt (runStep M st).1 = n := by omega
      obtain ⟨ha, hb, hc, hd⟩ := ih (runStep M st) hsum' hinv
      refine ⟨ha, ?_, ?_, ?_⟩
      · intro m hm
        obtain ⟨m', rfl⟩ : ∃ m', m = m' + 1 := ⟨m - 1, by omega⟩
        rw [runN_succ, runN_succ]
        exact hb m' (by omega)
      · intro m hm
        obtain ⟨m', rfl⟩ : ∃ m', m = m' + 1 := ⟨m - 1, by omega⟩
        rw [traceN_succ, List.length_append,
          stepTrace_length_of_cons M st t rest hq, hc m' (by omega)]
        omega
      · intro m hm
        cases m with
        | zero =>
          show st.1.ready_queue ≠ []
          rw [hq]
          simp
        | succ m' =>
          rw [runN_succ]
          exact hd m' (by omega)

/-- Claim C3: whenever every queued task needs a finite positive number of
polls (measured by a consistent poll-count), the run loop terminates after
exactly the sum of those counts, with an empty ready queue, having performed
exactly that many polls (it was still running at every earlier iteration);
and on an empty ready queue the loop returns immediately, performing no
polls and leaving the entire state (queue and world) unchanged. -/
theorem C3_run_terminates :
    (∀ (σ W : Type) (M : Machine σ W) (cnt : σ → Nat) (st : Runtime σ × W),
      StepCounts M cnt → (∀ u ∈ st.1.ready_queue, 1 ≤ cnt u.future) →
      (runN M (sumCnt cnt st.1) st).1.ready_queue = [] ∧
      (∀ m, sumCnt cnt st.1 ≤ m → runN M m st = runN M (sumCnt cnt st.1) st) ∧
      (∀ m, sumCnt cnt st.1 ≤ m → (traceN M m st).length = sumCnt cnt st.1) ∧
      (∀ m, m < sumCnt cnt st.1 → (runN M m st).1.ready_queue ≠ [])) ∧
    (∀ (σ W : Type) (M : Machine σ W) (st : Runtime σ × W),
      st.1.ready_queue = [] → ∀ m, runN M m st = st ∧ traceN M m st = []) := by
  constructor
  · intro σ W M cnt st hM h1
    exact run_exact M cnt hM (sumCnt cnt st.1) st rfl h1
  · intro σ W M st h m
    exact ⟨runN_of_empty M st h m, traceN_of_empty M st h m⟩

/-- Witness for C3: two tasks needing 2 and 3 polls; the loop stops after
exactly 5 polls with an empty queue. -/
theorem C3_run_terminates_witness :
    (runN countdownM 5 (⟨[⟨0, 2⟩, ⟨1, 3⟩]⟩, ())).1.ready_queue = [] ∧
    (traceN countdownM 5 (⟨[⟨0, 2⟩, ⟨1, 3⟩]⟩, ())).length = 5 := by
  have hM : StepCounts countdownM (fun s => s) := by
    intro s cx w
    constructor
    · intro h
      simp [countdownM, h]
    · intro h
      have h' : 2 ≤ s := h
      have h1 : ¬ s = 1 := by omega
      exact ⟨by simp [countdownM, h1], rfl⟩
  have e : sumCnt (fun s => s) (Runtime.mk [⟨0, 2⟩, ⟨1, 3⟩] : Runtime Nat) = 5 := rfl
  have h := C3_run_terminates.1 Nat Unit countdownM (fun s => s)
    (⟨[⟨0, 2⟩, ⟨1, 3⟩]⟩, ()) hM (by decide)
  constructor
  · have h1 := h.1
    rw [e] at h1
    exact h1
  · have h2 := h.2.2.1 5 e.le
    rw [e] at h2
    exact h2

@[simp] theorem runN_zero (M : Machine σ W) (st : Runtime σ × W) :
    runN M 0 st = st := rfl

@[simp] theorem traceN_zero (M : Machine σ W) (st : Runtime σ × W) :
    traceN M 0 st = [] := rfl

/-- Traces compose over split iteration counts. -/
theorem traceN_add (M : Machine σ W) (a b : Nat) (st : Runtime σ × W) :
    traceN M (a + b) st = traceN M a st ++ traceN M b (runN M a st) := by
  induction a generalizing st with
  | zero => simp
  | succ a ih =>
    have h : a + 1 + b = (a + b) + 1 := by omega
    rw [h, traceN_succ, ih (runStep M st), traceN_succ, runN_succ, List.append_assoc]

/-- Iterations compose over split iteration counts. -/
theorem runN_add (M : Machine σ W) (a b : Nat) (st : Runtime σ × W) :
    runN M (a + b) st = runN M b (runN M a st) := by
  induction a generalizing st with
  | zero => simp
  | succ a ih =>
    have h : a + 1 + b = (a + b) + 1 := by omega
    rw [h, runN_succ, ih (runStep M st), runN_succ]

theorem rotate_one_cons (a : Nat) (l : List Nat) : (a :: l).rotate 1 = l ++ [a] := by
  have h := List.rotate_cons_succ l a 0
  simpa using h

/-- A `Pending` poll of the head rotates the id sequence of the queue by one. -/
theorem ids_runStep_of_pending (M : Machine σ W) (st : Runtime σ × W)
    (t : Task σ) (rest : List (Task σ)) (hq : st.1.ready_queue = t :: rest)
    (hr : (Task.poll M t (Context.from_waker waker) st.2).result = Poll.Pending) :
    (runStep M st).1.ids = st.1.ids.rotate 1 := by
  have hstep : runStep M st =
      (⟨rest ++ [(Task.poll M t (Context.from_waker waker) st.2).state]⟩,
       (Task.poll M t (Context.from_waker waker) st.2).world) := by
    simp [runStep, hq, hr]
  have hids : st.1.ids = t.id :: rest.map Task.id := by simp [Runtime.ids, hq]
  rw [hstep, hids, rotate_one_cons]
  simp [Runtime.ids, Task.poll]

/-- While every poll returns `Pending`, `m ≤ |queue|` iterations poll the
first `m` queued tasks in order and rotate the queue by `m`. -/
theorem traceN_of_pending (M : Machine σ W) :
    ∀ m (st : Runtime σ × W), m ≤ st.1.ids.length →
      (∀ e ∈ traceN M m st, e.2 = Poll.Pending) →
      (traceN M m st).map Prod.fst = st.1.ids.take m ∧
      (runN M m st).1.ids = st.1.ids.rotate m := by
  intro m
  induction m with
  | zero =>
    intro st _ _
    exact ⟨by simp, by simp [List.rotate_zero]⟩
  | succ m ih =>
    intro st hm hel
    cases hq : st.1.ready_queue with
    | nil =>
      exfalso
      have h0 : st.1.ids.length = 0 := by simp [Runtime.ids, hq]
      omega
    | cons t rest =>
      have hmem : (t.id, (Task.poll M t (Context.from_waker waker) st.2).result) ∈
          traceN M (m + 1) st := by
        rw [traceN_succ]
        apply List.mem_append_left
        simp [stepTrace, hq]
      have hr : (Task.poll M t (Context.from_waker waker) st.2).result = Poll.Pending :=
        hel _ hmem
      have hrot : (runStep M st).1.ids = st.1.ids.rotate 1 :=
        ids_runStep_of_pending M st t rest hq hr
      have hids : st.1.ids = t.id :: rest.map Task.id := by simp [Runtime.ids, hq]
      have hlen : st.1.ids.length = rest.length + 1 := by rw [hids]; simp
      have hm' : m ≤ (runStep M st).1.ids.length := by
        rw [hrot, List.length_rotate]
        omega
      have hel' : ∀ e ∈ traceN M m (runStep M st), e.2 = Poll.Pending := by
        intro e he
        exact hel e (by rw [traceN_succ]; exact List.mem_append_right _ he)
      obtain ⟨h1, h2⟩ := ih (runStep M st) hm' hel'
      constructor
      · rw [traceN_succ, List.map_append, h1, hrot]
        have hst : (stepTrace M st).map Prod.fst = [t.id] := by simp [stepTrace, hq]
        rw [hst, hids, rotate_one_cons]
        have hmle : m ≤ (rest.map Task.id).length := by
          simp only [List.length_map]
          omega
        rw [List.take_append_of_le_length hmle, List.take_succ_cons]
        rfl
      · rw [runN_succ, h2, hrot, List.rotate_rotate, Nat.add_comm 1 m]

/-- One full all-`Pending` round polls every queued task once, in queue
order, and restores the id sequence of the queue. -/
theorem traceN_round (M : Machine σ W) (st : Runtime σ × W)
    (hel : ∀ e ∈ traceN M st.1.ids.length st, e.2 = Poll.Pending) :
    (traceN M st.1.ids.length st).map Prod.fst = st.1.ids ∧
    (runN M st.1.ids.length st).1.ids = st.1.ids := by
  obtain ⟨h1, h2⟩ := traceN_of_pending M st.1.ids.length st (le_refl _) hel
  exact ⟨by rw [h1, List.take_length], by rw [h2, List.rotate_length]⟩

/-- `K` full all-`Pending` rounds poll the queued ids in strict FIFO
rotation: the id trace is `K` concatenated copies of the id sequence of the
queue. -/
theorem traceN_rounds (M : Machine σ W) :
    ∀ K (st : Runtime σ × W),
      (∀ e ∈ traceN M (K * st.1.ids.length) st, e.2 = Poll.Pending) →
      (traceN M (K * st.1.ids.length) st).map Prod.fst =
        List.flatten (List.replicate K st.1.ids) ∧
      (runN M (K * st.1.ids.length) st).1.ids = st.1.ids := by
  intro K
  induction K with
  | zero => intro st _; exact ⟨by simp, by simp⟩
  | succ K ih =>
    intro st hel
    have hsplit : (K + 1) * st.1.ids.length =
        st.1.ids.length + K * st.1.ids.length := by ring
    have htr : traceN M ((K + 1) * st.1.ids.length) st =
        traceN M st.1.ids.length st ++
          traceN M (K * st.1.ids.length) (runN M st.1.ids.length st) := by
      rw [hsplit, traceN_add]
    have hel1 : ∀ e ∈ traceN M st.1.ids.length st, e.2 = Poll.Pending := by
      intro e he
      exact hel e (by rw [htr]; exact List.mem_append_left _ he)
    obtain ⟨hr1, hr2⟩ := traceN_round M st hel1
    have hel2 : ∀ e ∈ traceN M (K * st.1.ids.length) (runN M st.1.ids.length st),
        e.2 = Poll.Pending := by
      intro e he
      exact hel e (by rw [htr]; exact List.mem_append_right _ he)
    have hel2' : ∀ e ∈ traceN M (K * (runN M st.1.ids.length st).1.ids.length)
        (runN M st.1.ids.length st), e.2 = Poll.Pending := by
      rw [hr2]
      exact hel2
    obtain ⟨hK1, hK2⟩ := ih (runN M st.1.ids.length st) hel2'
    rw [hr2] at hK1 hK2
    constructor
    · rw [htr, List.map_append, hr1, hK1, List.replicate_succ, List.flatten_cons]
    · have hrn : runN M ((K + 1) * st.1.ids.length) st =
          runN M (K * st.1.ids.length) (runN M st.1.ids.length st) := by
        rw [hsplit, runN_add]
      rw [hrn]
      exact hK2

/-- In `K` concatenated copies of `l`, the window of length `|l| - 1` that
starts right after the occurrence of position `p` in copy `j` consists of the
rest of that copy followed by the start of the next one. -/
theorem flatten_replicate_segment (l : List Nat) :
    ∀ j K p, p < l.length → j + 1 < K →
      ((List.flatten (List.replicate K l)).drop (j * l.length + p + 1)).take
          (l.length - 1) =
        l.drop (p + 1) ++ l.take p := by
  intro j
  induction j with
  | zero =>
    intro K p hp hj
    obtain ⟨K', rfl⟩ : ∃ K', K = K' + 2 := ⟨K - 2, by omega⟩
    rw [List.replicate_succ, List.flatten_cons, Nat.zero_mul, Nat.zero_add]
    have hd : (l ++ (List.replicate (K' + 1) l).flatten).drop (p + 1) =
        l.drop (p + 1) ++ (List.replicate (K' + 1) l).flatten :=
      List.drop_append_of_le_length (by omega)
    rw [hd, List.take_append_eq_append_take]
    have hlen1 : (l.drop (p + 1)).length = l.length - (p + 1) := by simp
    have htk1 : (l.drop (p + 1)).take (l.length - 1) = l.drop (p + 1) :=
      List.take_of_length_le (by simp; omega)
    rw [htk1]
    have harith : l.length - 1 - (l.drop (p + 1)).length = p := by
      rw [hlen1]
      omega
    rw [harith, List.replicate_succ, List.flatten_cons,
      List.take_append_of_le_length (by omega)]
  | succ j ih =>
    intro K p hp hj
    obtain ⟨K', rfl⟩ : ∃ K', K = K' + 1 := ⟨K - 1, by omega⟩
    rw [List.replicate_succ, List.flatten_cons]
    have harith : (j + 1) * l.length + p + 1 = l.length + (j * l.length + p + 1) := by
      ring
    rw [harith, List.drop_append]
    exact ih K' p hp (by omega)

/-- The window after position `p` is a permutation of the list with position
`p` removed. -/
theorem drop_take_perm_eraseIdx (l : List Nat) (p : Nat) :
    (l.drop (p + 1) ++ l.take p).Perm (l.eraseIdx p) := by
  rw [List.eraseIdx_eq_take_drop_succ]
  exact List.perm_append_comm

/-- Occurrence count in `K` concatenated copies of a list. -/
theorem count_flatten_replicate (a : Nat) (K : Nat) (l : List Nat) :
    (List.flatten (List.replicate K l)).count a = K * l.count a := by
  induction K with
  | zero => simp
  | succ K ih =>
    rw [List.replicate_succ, List.flatten_cons, List.count_append, ih]
    ring

/-- Claim C4: strict FIFO round-robin rotation.  If every poll in `K` full
rounds over a queue with (pairwise distinct) id sequence `ids` returns
`Pending`, then the id trace of those `K * |ids|` polls is exactly `K`
concatenated copies of `ids`; hence every queued task is polled exactly `K`
times in that span, and between two consecutive polls of the task at
position `p` every other queued task is polled exactly once (the window
between them is a permutation of the other ids). -/
theorem C4_round_robin (σ W : Type) (M : Machine σ W) (st : Runtime σ × W) (K : Nat)
    (hP : (traceN M (K * st.1.ids.length) st).map Prod.snd =
      List.replicate (K * st.1.ids.length) Poll.Pending)
    (hnd : st.1.ids.Nodup) :
    (traceN M (K * st.1.ids.length) st).map Prod.fst =
      List.flatten (List.replicate K st.1.ids) ∧
    (∀ a ∈ st.1.ids,
      ((traceN M (K * st.1.ids.length) st).map Prod.fst).count a = K) ∧
    (∀ p, p < st.1.ids.length → ∀ j, j + 1 < K →
      ((((traceN M (K * st.1.ids.length) st).map Prod.fst).drop
          (j * st.1.ids.length + p + 1)).take (st.1.ids.length - 1)) =
        st.1.ids.drop (p + 1) ++ st.1.ids.take p ∧
      ((((traceN M (K * st.1.ids.length) st).map Prod.fst).drop
          (j * st.1.ids.length + p + 1)).take (st.1.ids.length - 1)).Perm
        (st.1.ids.eraseIdx p)) := by
  have hel : ∀ e ∈ traceN M (K * st.1.ids.length) st, e.2 = Poll.Pending := by
    intro e he
    have hmem : e.2 ∈ (traceN M (K * st.1.ids.length) st).map Prod.snd :=
      List.mem_map_of_mem Prod.snd he
    rw [hP] at hmem
    exact List.eq_of_mem_replicate hmem
  obtain ⟨hjoin, -⟩ := traceN_rounds M K st hel
  refine ⟨hjoin, ?_, ?_⟩
  · intro a ha
    rw [hjoin, count_flatten_replicate, List.count_eq_one_of_mem hnd ha, Nat.mul_one]
  · intro p hp j hj
    constructor
    · rw [hjoin]
      exact flatten_replicate_segment st.1.ids j K p hp hj
    · rw [hjoin, flatten_replicate_segment st.1.ids j K p hp hj]
      exact drop_take_perm_eraseIdx st.1.ids p

/-- A machine whose futures never complete. -/
def pendingM : Machine Unit Unit := ⟨fun _ _ w => ⟨(), w, Poll.Pending⟩⟩

/-- Witness for C4: two never-completing tasks, two full rounds: the polls
alternate `0, 1, 0, 1`. -/
theorem C4_round_robin_witness :
    (traceN pendingM 4 (⟨[⟨0, ()⟩, ⟨1, ()⟩]⟩, ())).map Prod.fst = [0, 1, 0, 1] := by
  have h := (C4_round_robin Unit Unit pendingM (⟨[⟨0, ()⟩, ⟨1, ()⟩]⟩, ()) 2
    (by decide) (by decide)).1
  exact h.trans (by decide)

end AsyncOS
